import Mathlib

/-!
Verification of the podcast-generation workflow core.

This file gives a shallow embedding of the repository's pure control logic
(`utils.py`, `graph.py`, `configuration.py`, `podcast_generator.py`) and proves
or refutes the specified properties of the Source Aggregator, the Transcript
Compiler, the completed-segments merge, the configuration resolution, the
Intro/Outro stage and the transcript preprocessor.  Calls to language models
and to the web-search provider are opaque capabilities; they enter the
embedding as function parameters (for generated text) or as input data (for
search results and grading verdicts).
-/

namespace Podcast

/-! ### Python dict machinery

`deduplicate_and_format_sources` builds `{source['url']: source for ...}` and
`compile_final_transcript` builds `{s.title: s.dialogue for ...}`.  A Python
dict built from a key-value sequence keeps, for each key, the value of the
last binding, and iterates in insertion order of each key's first occurrence.
We model a dict as an association list in iteration order. -/

/-- One Python dict assignment `m[k] = v`: overwrite in place if the key is
present, append at the end (insertion order) otherwise. -/
def dictUpsert {β : Type} : List (String × β) → String → β → List (String × β)
  | [], k, v => [(k, v)]
  | (k0, v0) :: rest, k, v =>
      if k0 = k then (k0, v) :: rest else (k0, v0) :: dictUpsert rest k v

/-- The Python dict built from the key-value sequence `kvs` (dict
comprehension semantics: later bindings overwrite earlier ones; iteration
order is insertion order of first occurrences). -/
def pyDict {β : Type} (kvs : List (String × β)) : List (String × β) :=
  kvs.foldl (fun m kv => dictUpsert m kv.1 kv.2) []

/-- Python `m[k]` / `m.get(k)`: the value stored under key `k`. -/
def dictLookup {β : Type} (k : String) : List (String × β) → Option β
  | [] => Option.none
  | (k0, v) :: rest => if k0 = k then some v else dictLookup k rest

/-- Python `k in m`: key membership. -/
def dictMem {β : Type} (k : String) (m : List (String × β)) : Bool :=
  (dictLookup k m).isSome

/-- The value attached to the last occurrence of key `k` in the raw
key-value sequence `kvs` (used to state the dict claims). -/
def lastAssoc {β : Type} (k : String) (kvs : List (String × β)) : Option β :=
  ((kvs.filter (fun p => p.1 == k)).getLast?).map Prod.snd

/-- Insertion order of first occurrences of the keys `ks`, continuing after
the already-seen keys `acc` (used to state the iteration-order claim). -/
def firstSeen (acc : List String) (ks : List String) : List String :=
  ks.foldl (fun a u => if u ∈ a then a else a ++ [u]) acc

theorem dictLookup_dictUpsert {β : Type} (m : List (String × β)) (k0 k : String) (v : β) :
    dictLookup k (dictUpsert m k0 v) = if k0 = k then some v else dictLookup k m := by
  induction m with
  | nil => simp [dictUpsert, dictLookup]
  | cons hd tl ih =>
    obtain ⟨k1, v1⟩ := hd
    by_cases h1 : k1 = k0
    · subst h1
      by_cases h2 : k1 = k <;> simp [dictUpsert, dictLookup, h2]
    · by_cases h2 : k1 = k
      · subst h2
        simp [dictUpsert, dictLookup, h1, Ne.symm h1]
      · simp [dictUpsert, dictLookup, h1, h2, ih]

theorem dictKeys_dictUpsert {β : Type} (m : List (String × β)) (k : String) (v : β) :
    (dictUpsert m k v).map Prod.fst =
      if k ∈ m.map Prod.fst then m.map Prod.fst else m.map Prod.fst ++ [k] := by
  induction m with
  | nil => simp [dictUpsert]
  | cons hd tl ih =>
    obtain ⟨k1, v1⟩ := hd
    by_cases h1 : k1 = k
    · subst h1; simp [dictUpsert]
    · by_cases h2 : k ∈ tl.map Prod.fst <;>
        simp [dictUpsert, h1, ih, Ne.symm h1, h2]

theorem lastAssoc_cons {β : Type} (k : String) (p : String × β) (kvs : List (String × β)) :
    lastAssoc k (p :: kvs) =
      match lastAssoc k kvs with
      | some v => some v
      | Option.none => if p.1 = k then some p.2 else Option.none := by
  by_cases h : p.1 = k
  · simp only [lastAssoc, List.filter_cons, h, beq_self_eq_true, if_true]
    cases hl : kvs.filter (fun q => q.1 == k) with
    | nil => simp [hl, h]
    | cons a l =>
      rw [List.getLast?_cons_cons]
      cases hf : (a :: l).getLast? with
      | none => simp at hf
      | some v => simp [hf]
  · have hb : (p.1 == k) = false := by simp [h]
    simp only [lastAssoc, List.filter_cons, hb]
    cases hf : (kvs.filter (fun q => q.1 == k)).getLast? <;> simp [hf, h]

theorem lastAssoc_nil {β : Type} (k : String) : lastAssoc (β := β) k [] = Option.none := by
  simp [lastAssoc]

theorem dictLookup_foldl_upsert {β : Type} (kvs : List (String × β)) :
    ∀ (m : List (String × β)) (k : String),
      dictLookup k (kvs.foldl (fun m kv => dictUpsert m kv.1 kv.2) m) =
        match lastAssoc k kvs with
        | some v => some v
        | Option.none => dictLookup k m := by
  induction kvs with
  | nil => intro m k; simp [lastAssoc]
  | cons p rest ih =>
    intro m k
    simp only [List.foldl_cons]
    rw [ih (dictUpsert m p.1 p.2) k, lastAssoc_cons]
    cases hr : lastAssoc k rest with
    | some v => rfl
    | none =>
      simp only []
      rw [dictLookup_dictUpsert]
      by_cases h : p.1 = k <;> simp [h]

/-- Looking a key up in a Python dict yields the value of the key's last
occurrence in the binding sequence. -/
theorem dictLookup_pyDict {β : Type} (kvs : List (String × β)) (k : String) :
    dictLookup k (pyDict kvs) = lastAssoc k kvs := by
  rw [pyDict, dictLookup_foldl_upsert]
  cases h : lastAssoc k kvs <;> simp [dictLookup]

theorem dictKeys_foldl_upsert {β : Type} (kvs : List (String × β)) :
    ∀ (m : List (String × β)),
      (kvs.foldl (fun m kv => dictUpsert m kv.1 kv.2) m).map Prod.fst =
        firstSeen (m.map Prod.fst) (kvs.map Prod.fst) := by
  induction kvs with
  | nil => intro m; simp [firstSeen]
  | cons p rest ih =>
    intro m
    simp only [List.foldl_cons, List.map_cons, firstSeen]
    rw [ih (dictUpsert m p.1 p.2)]
    simp [firstSeen, dictKeys_dictUpsert]

/-- Iteration order of a Python dict is insertion order of each key's first
occurrence. -/
theorem dictKeys_pyDict {β : Type} (kvs : List (String × β)) :
    (pyDict kvs).map Prod.fst = firstSeen [] (kvs.map Prod.fst) := by
  rw [pyDict, dictKeys_foldl_upsert]; rfl

theorem firstSeen_cons (acc : List String) (v : String) (rest : List String) :
    firstSeen acc (v :: rest) = firstSeen (if v ∈ acc then acc else acc ++ [v]) rest := rfl

theorem firstSeen_nodup (ks : List String) :
    ∀ acc : List String, acc.Nodup → (firstSeen acc ks).Nodup := by
  induction ks with
  | nil => intro acc h; simpa [firstSeen] using h
  | cons u rest ih =>
    intro acc h
    rw [firstSeen_cons]
    by_cases hm : u ∈ acc
    · rw [if_pos hm]; exact ih acc h
    · rw [if_neg hm]
      exact ih (acc ++ [u]) (by simp [List.nodup_append, h, hm])

theorem mem_firstSeen (ks : List String) :
    ∀ (acc : List String) (u : String), u ∈ firstSeen acc ks ↔ u ∈ acc ∨ u ∈ ks := by
  induction ks with
  | nil => intro acc u; simp [firstSeen]
  | cons v rest ih =>
    intro acc u
    rw [firstSeen_cons]
    by_cases hm : v ∈ acc
    · rw [if_pos hm, ih acc u]
      constructor
      · rintro (h | h)
        · exact Or.inl h
        · exact Or.inr (List.mem_cons_of_mem _ h)
      · rintro (h | h)
        · exact Or.inl h
        · rcases List.mem_cons.mp h with h | h
          · exact Or.inl (h ▸ hm)
          · exact Or.inr h
    · rw [if_neg hm, ih (acc ++ [v]) u]
      simp only [List.mem_append, List.mem_singleton, List.mem_cons]
      tauto

theorem lastAssoc_eq_none_iff {β : Type} (k : String) (kvs : List (String × β)) :
    lastAssoc k kvs = Option.none ↔ k ∉ kvs.map Prod.fst := by
  rw [lastAssoc]
  constructor
  · intro h hk
    rcases List.mem_map.mp hk with ⟨p, hp, hpk⟩
    have hmem : p ∈ kvs.filter (fun q => q.1 == k) := by
      simp [List.mem_filter, hp, hpk]
    have : kvs.filter (fun q => q.1 == k) ≠ [] := by
      intro hnil; rw [hnil] at hmem; simp at hmem
    rcases List.getLast?_isSome.mpr this |> Option.isSome_iff_exists.mp with ⟨v, hv⟩
    rw [hv] at h; simp at h
  · intro h
    have : kvs.filter (fun q => q.1 == k) = [] := by
      rw [List.filter_eq_nil_iff]
      intro p hp hpk
      exact h (List.mem_map.mpr ⟨p, hp, by simpa using hpk⟩)
    simp [this]

theorem lastAssoc_append {β : Type} (k : String) (l1 l2 : List (String × β)) :
    lastAssoc k (l1 ++ l2) =
      match lastAssoc k l2 with
      | some v => some v
      | Option.none => lastAssoc k l1 := by
  induction l1 with
  | nil =>
    cases h : lastAssoc k l2 with
    | some v => simp [h]
    | none => simp [h, lastAssoc_nil]
  | cons p rest ih =>
    rw [List.cons_append, lastAssoc_cons, ih, lastAssoc_cons]
    cases h2 : lastAssoc k l2 <;> cases hr : lastAssoc k rest <;> rfl

/-- When the keys of `kvs` are distinct, the last occurrence of a key is also
its first, so last-binding-wins lookup agrees with first-match lookup. -/
theorem lastAssoc_eq_dictLookup_of_nodup {β : Type} (k : String) (kvs : List (String × β))
    (h : (kvs.map Prod.fst).Nodup) : lastAssoc k kvs = dictLookup k kvs := by
  induction kvs with
  | nil => simp [lastAssoc_nil, dictLookup]
  | cons p rest ih =>
    rw [lastAssoc_cons]
    have hrest : (rest.map Prod.fst).Nodup := (List.nodup_cons.mp (by simpa using h)).2
    have hnotin : p.1 ∉ rest.map Prod.fst := (List.nodup_cons.mp (by simpa using h)).1
    by_cases hk : p.1 = k
    · subst hk
      have : lastAssoc p.1 rest = Option.none := (lastAssoc_eq_none_iff _ _).mpr hnotin
      simp [this, dictLookup]
    · rw [ih hrest]
      cases hr : dictLookup k rest <;> simp [dictLookup, hk, hr]

theorem dictLookup_eq_some_iff_of_nodup {β : Type} (k : String) (v : β)
    (kvs : List (String × β)) (h : (kvs.map Prod.fst).Nodup) :
    dictLookup k kvs = some v ↔ (k, v) ∈ kvs := by
  induction kvs with
  | nil => simp [dictLookup]
  | cons p rest ih =>
    obtain ⟨k1, v1⟩ := p
    have h2 : (k1 :: rest.map Prod.fst).Nodup := by simpa only [List.map_cons] using h
    have hrest : (rest.map Prod.fst).Nodup := (List.nodup_cons.mp h2).2
    have hnotin : k1 ∉ rest.map Prod.fst := (List.nodup_cons.mp h2).1
    by_cases hk : k1 = k
    · subst hk
      have hd : dictLookup k1 ((k1, v1) :: rest) = some v1 := by simp [dictLookup]
      rw [hd]
      simp only [Option.some.injEq, List.mem_cons, Prod.mk.injEq]
      constructor
      · intro hv; exact Or.inl ⟨trivial, hv.symm⟩
      · rintro (⟨-, hv⟩ | hv)
        · exact hv.symm
        · exact absurd (List.mem_map.mpr ⟨(k1, v), hv, rfl⟩) hnotin
    · simp only [dictLookup, if_neg hk, List.mem_cons, Prod.mk.injEq, ih hrest]
      constructor
      · exact Or.inr
      · rintro (⟨hk1, -⟩ | hv)
        · exact absurd hk1.symm hk
        · exact hv

theorem dictLookup_eq_none_iff {β : Type} (k : String) (kvs : List (String × β)) :
    dictLookup k kvs = Option.none ↔ k ∉ kvs.map Prod.fst := by
  induction kvs with
  | nil => simp [dictLookup]
  | cons p rest ih =>
    by_cases hk : p.1 = k
    · subst hk; simp [dictLookup]
    · simp [dictLookup, hk, ih, Ne.symm hk]

/-! ### Python string helpers -/

/-- Python `str.strip()` with no argument: remove leading and trailing
whitespace (for the transcripts and source blocks at hand the ASCII
whitespace recognized by `Char.isWhitespace` is the relevant set). -/
def pyStrip (s : String) : String :=
  ⟨((s.data.dropWhile Char.isWhitespace).reverse.dropWhile Char.isWhitespace).reverse⟩

/-- Two accumulators that are permutations of each other with distinct keys
induce the same Python dict lookups. -/
theorem dictLookup_pyDict_perm {β : Type} (kvs1 kvs2 : List (String × β))
    (hperm : kvs1.Perm kvs2) (h : (kvs2.map Prod.fst).Nodup) (k : String) :
    dictLookup k (pyDict kvs1) = dictLookup k (pyDict kvs2) := by
  have h1 : (kvs1.map Prod.fst).Nodup := ((hperm.map Prod.fst).nodup_iff).mpr h
  rw [dictLookup_pyDict, dictLookup_pyDict, lastAssoc_eq_dictLookup_of_nodup k kvs1 h1,
    lastAssoc_eq_dictLookup_of_nodup k kvs2 h]
  cases h2 : dictLookup k kvs2 with
  | some v =>
    exact (dictLookup_eq_some_iff_of_nodup k v kvs1 h1).mpr
      (hperm.mem_iff.mpr ((dictLookup_eq_some_iff_of_nodup k v kvs2 h).mp h2))
  | none =>
    rw [dictLookup_eq_none_iff] at h2 ⊢
    intro hmem
    exact h2 ((hperm.map Prod.fst).mem_iff.mp hmem)

/-! ### Source Aggregator (`utils.deduplicate_and_format_sources`)

Embedding of `utils.py:15-56`.  A search result dict carries `title`, `url`,
`content`, `score`, `raw_content`; the aggregator never reads `score` (a
float), so that field is omitted.  `raw_content` distinguishes a missing key
(`Option.none`) from a key holding Python `None` (`some Option.none`). -/

structure Source where
  title : String
  url : String
  content : String
  raw_content : Option (Option String)
deriving DecidableEq, Repr

/-- One per-query search response; of its fields (`query`,
`follow_up_questions`, `answer`, `images`, `results`) the aggregator reads
only `results`. -/
structure SearchResponse where
  query : String
  results : List Source
deriving DecidableEq, Repr

/-- The `sources_list` accumulation loop: `sources_list.extend(response['results'])`
over all responses. -/
def sourcesList (search_response : List SearchResponse) : List Source :=
  search_response.foldl (fun acc r => acc ++ r.results) []

/-- The dict comprehension `{source['url']: source for source in sources_list}`. -/
def uniqueSources (sources_list : List Source) : List (String × Source) :=
  pyDict (sources_list.map (fun s => (s.url, s)))

/-- The raw-content fallback: `source.get('raw_content', '')` followed by
`if raw_content is None: raw_content = ''`. -/
def rawContentOrEmpty (s : Source) : String :=
  match s.raw_content with
  | Option.none => ""
  | some Option.none => ""
  | some (some r) => r

/-- The text emitted for one deduplicated source (the body of the
`for i, source in enumerate(unique_sources.values(), 1)` loop; the enumerate
index `i` is never interpolated). -/
def formatSource (max_tokens_per_source : Nat) (include_raw_content : Bool) (s : Source) : String :=
  let head := "Source " ++ s.title ++ ":\n===\n" ++
    "URL: " ++ s.url ++ "\n===\n" ++
    "Most relevant content from source: " ++ s.content ++ "\n===\n"
  if include_raw_content then
    let char_limit := max_tokens_per_source * 4
    let raw_content := rawContentOrEmpty s
    let raw2 := if raw_content.length > char_limit
      then (⟨raw_content.data.take char_limit⟩ : String) ++ "... [truncated]"
      else raw_content
    head ++ "Full source content limited to " ++ toString max_tokens_per_source ++
      " tokens: " ++ raw2 ++ "\n\n"
  else head

/-- `utils.deduplicate_and_format_sources`: flatten all responses, collapse
by URL (Python dict semantics), emit one block per unique source under a
`Sources:` header, and strip the result. -/
def deduplicate_and_format_sources (search_response : List SearchResponse)
    (max_tokens_per_source : Nat) (include_raw_content : Bool) : String :=
  let sources_list := sourcesList search_response
  let unique_sources := uniqueSources sources_list
  let formatted_text := "Sources:\n\n" ++
    String.join (unique_sources.map (fun p => formatSource max_tokens_per_source include_raw_content p.2))
  pyStrip formatted_text

theorem sourcesList_eq_flatten (search_response : List SearchResponse) :
    sourcesList search_response = (search_response.map SearchResponse.results).flatten := by
  have haux : ∀ (rs : List SearchResponse) (acc : List Source),
      rs.foldl (fun acc r => acc ++ r.results) acc = acc ++ (rs.map SearchResponse.results).flatten := by
    intro rs
    induction rs with
    | nil => intro acc; simp
    | cons r rest ih => intro acc; simp [ih, List.append_assoc]
  simpa using haux search_response []

theorem uniqueSources_keys (srcs : List Source) :
    (uniqueSources srcs).map Prod.fst = firstSeen [] (srcs.map Source.url) := by
  rw [uniqueSources, dictKeys_pyDict, List.map_map]
  rfl

theorem uniqueSources_retains_last (srcs : List Source) (u : String) :
    dictLookup u (uniqueSources srcs) = (srcs.filter (fun s => s.url == u)).getLast? := by
  rw [uniqueSources, dictLookup_pyDict, lastAssoc]
  rw [List.filter_map, List.getLast?_map, Option.map_map]
  have h1 : (fun p => p.1 == u) ∘ (fun s : Source => (s.url, s)) = fun s => s.url == u := rfl
  have h2 : Prod.snd ∘ (fun s : Source => (s.url, s)) = id := rfl
  rw [h1, h2]
  simp

/-- C2: the Source Aggregator keeps each URL exactly once (its key list has
no duplicates and holds exactly the URLs that occur in the input), the
retained record for a URL is the last occurrence in processing order, the
emission order is insertion order of first occurrences, and the formatted
output is the header followed by one block per retained source in that
order. -/
theorem claim_C2 (search_response : List SearchResponse) (max_tokens : Nat) (include_raw : Bool) :
    ((uniqueSources (sourcesList search_response)).map Prod.fst).Nodup ∧
    (∀ u, u ∈ (uniqueSources (sourcesList search_response)).map Prod.fst ↔
        u ∈ (sourcesList search_response).map Source.url) ∧
    (∀ u, dictLookup u (uniqueSources (sourcesList search_response)) =
        ((sourcesList search_response).filter (fun s => s.url == u)).getLast?) ∧
    (uniqueSources (sourcesList search_response)).map Prod.fst =
        firstSeen [] ((sourcesList search_response).map Source.url) ∧
    deduplicate_and_format_sources search_response max_tokens include_raw =
      pyStrip ("Sources:\n\n" ++ String.join ((uniqueSources (sourcesList search_response)).map
        (fun p => formatSource max_tokens include_raw p.2))) := by
  refine ⟨?_, ?_, ?_, ?_, rfl⟩
  · rw [uniqueSources_keys]
    exact firstSeen_nodup _ [] List.nodup_nil
  · intro u
    rw [uniqueSources_keys, mem_firstSeen]
    simp
  · exact uniqueSources_retains_last _
  · exact uniqueSources_keys _

/-- C6: with raw content requested, a retained source whose raw content
exceeds `max_tokens × 4` characters is emitted truncated to exactly that
many characters plus the `... [truncated]` marker; raw content within the
budget is emitted unchanged with no marker; and a missing or `None` raw
content is read as the empty string. -/
theorem claim_C6 (max_tokens : Nat) (s : Source) :
    ((rawContentOrEmpty s).length > max_tokens * 4 →
      formatSource max_tokens true s =
        formatSource max_tokens false s ++ "Full source content limited to " ++
          toString max_tokens ++ " tokens: " ++
          ((⟨(rawContentOrEmpty s).data.take (max_tokens * 4)⟩ : String) ++ "... [truncated]") ++
          "\n\n" ∧
      ((⟨(rawContentOrEmpty s).data.take (max_tokens * 4)⟩ : String)).length = max_tokens * 4) ∧
    ((rawContentOrEmpty s).length ≤ max_tokens * 4 →
      formatSource max_tokens true s =
        formatSource max_tokens false s ++ "Full source content limited to " ++
          toString max_tokens ++ " tokens: " ++ rawContentOrEmpty s ++ "\n\n") ∧
    (∀ t u c, rawContentOrEmpty ⟨t, u, c, Option.none⟩ = "" ∧
      rawContentOrEmpty ⟨t, u, c, some Option.none⟩ = "") := by
  have hunf : formatSource max_tokens true s =
      formatSource max_tokens false s ++ "Full source content limited to " ++
        toString max_tokens ++ " tokens: " ++
        (if (rawContentOrEmpty s).length > max_tokens * 4
          then (⟨(rawContentOrEmpty s).data.take (max_tokens * 4)⟩ : String) ++ "... [truncated]"
          else rawContentOrEmpty s) ++ "\n\n" := rfl
  refine ⟨?_, ?_, fun t u c => ⟨rfl, rfl⟩⟩
  · intro h
    constructor
    · rw [hunf, if_pos h]
    · show ((rawContentOrEmpty s).data.take (max_tokens * 4)).length = max_tokens * 4
      rw [List.length_take]
      have : (rawContentOrEmpty s).data.length = (rawContentOrEmpty s).length := rfl
      omega
  · intro h
    rw [hunf, if_neg (by omega)]

/-- Concrete instantiation of C6 at a source whose raw content has 8
characters against a 4-character budget. -/
def srcLong : Source := ⟨"T", "http://u", "c", some (some "abcdefgh")⟩

theorem claim_C6_witness :
    (rawContentOrEmpty srcLong).length > 1 * 4 ∧
    (formatSource 1 true srcLong =
        formatSource 1 false srcLong ++ "Full source content limited to " ++
          toString 1 ++ " tokens: " ++
          ((⟨(rawContentOrEmpty srcLong).data.take (1 * 4)⟩ : String) ++ "... [truncated]") ++
          "\n\n" ∧
      ((⟨(rawContentOrEmpty srcLong).data.take (1 * 4)⟩ : String)).length = 1 * 4) :=
  ⟨by decide, (claim_C6 1 srcLong).1 (by decide)⟩

/-- C9: on empty input (no responses, or responses whose result lists are all
empty) the aggregator returns the bare stripped header. -/
theorem claim_C9 (search_response : List SearchResponse) (max_tokens : Nat) (include_raw : Bool)
    (h : ∀ r ∈ search_response, r.results = []) :
    deduplicate_and_format_sources search_response max_tokens include_raw = "Sources:" := by
  have hs : sourcesList search_response = [] := by
    rw [sourcesList_eq_flatten]
    induction search_response with
    | nil => rfl
    | cons r rest ih =>
      have hr : r.results = [] := h r (List.mem_cons_self r rest)
      have := ih (fun x hx => h x (List.mem_cons_of_mem r hx))
      simp [hr, this]
  have : deduplicate_and_format_sources search_response max_tokens include_raw =
      pyStrip ("Sources:\n\n" ++ String.join []) := by
    simp only [deduplicate_and_format_sources, hs]
    rfl
  rw [this]
  decide

def emptyResp : SearchResponse := ⟨"q", []⟩

theorem claim_C9_witness :
    (∀ r ∈ [emptyResp], r.results = ([] : List Source)) ∧
    deduplicate_and_format_sources [emptyResp] 500 true = "Sources:" :=
  ⟨by decide, claim_C9 [emptyResp] 500 true (by decide)⟩

/-! ### Segments, the completed-segments merge and the Transcript Compiler

Embedding of `state.PodcastSegment`, the `operator.add` reducer on
`PodcastState.completed_segments` (`state.py:43`), and
`graph.compile_final_transcript` (`graph.py:201-213`). -/

structure PodcastSegment where
  title : String
  duration : String
  description : String
  research : Bool
  dialogue : String
deriving DecidableEq, Repr

/-- The accumulator merge: `completed_segments` is annotated with
`operator.add`, so contributions are appended by list concatenation. -/
def mergeCompleted (acc new : List PodcastSegment) : List PodcastSegment := acc ++ new

inductive CompileError where
  | missingSegments (titles : List String)
deriving DecidableEq, Repr

/-- The dict comprehension `{s.title: s.dialogue for s in completed_segments}`
built at the top of `compile_final_transcript`. -/
def titleDict (completed : List PodcastSegment) : List (String × String) :=
  pyDict (completed.map (fun s => (s.title, s.dialogue)))

/-- The list comprehension
`[s.title for s in segments if s.title not in completed_segments]`. -/
def missingTitles (segments completed : List PodcastSegment) : List String :=
  (segments.filter (fun s => !(dictMem s.title (titleDict completed)))).map PodcastSegment.title

/-- `graph.compile_final_transcript`: raise on missing titles, otherwise
assign each planned segment the looked-up dialogue and join with a blank
line.  The lookup `completed_segments[segment.title]` cannot fail in the
non-raising branch; the unreachable miss case is modelled as keeping the
segment's own dialogue. -/
def compile_final_transcript (segments completed : List PodcastSegment) :
    Except CompileError String :=
  if missingTitles segments completed = [] then
    Except.ok (String.intercalate "\n\n"
      (segments.map (fun s => (dictLookup s.title (titleDict completed)).getD s.dialogue)))
  else Except.error (CompileError.missingSegments (missingTitles segments completed))

theorem titleDict_lookup (completed : List PodcastSegment) (t : String) :
    dictLookup t (titleDict completed) =
      ((completed.filter (fun c => c.title == t)).getLast?).map PodcastSegment.dialogue := by
  rw [titleDict, dictLookup_pyDict, lastAssoc, List.filter_map, List.getLast?_map,
    Option.map_map]
  rfl

theorem dictMem_titleDict (completed : List PodcastSegment) (t : String) :
    dictMem t (titleDict completed) = false ↔ ∀ c ∈ completed, c.title ≠ t := by
  have hk : (completed.map (fun s => (s.title, s.dialogue))).map Prod.fst =
      completed.map PodcastSegment.title := by
    rw [List.map_map]; rfl
  rw [dictMem, titleDict, dictLookup_pyDict]
  constructor
  · intro hm c hc hct
    have hnone : lastAssoc t (completed.map (fun s => (s.title, s.dialogue))) = Option.none := by
      cases ho : lastAssoc t (completed.map (fun s => (s.title, s.dialogue))) with
      | none => rfl
      | some v => rw [ho] at hm; simp at hm
    have habs := (lastAssoc_eq_none_iff _ _).mp hnone
    rw [hk] at habs
    exact habs (List.mem_map.mpr ⟨c, hc, hct⟩)
  · intro hall
    have habs : t ∉ (completed.map (fun s => (s.title, s.dialogue))).map Prod.fst := by
      rw [hk]
      intro hmem
      rcases List.mem_map.mp hmem with ⟨c, hc, hct⟩
      exact hall c hc hct
    rw [(lastAssoc_eq_none_iff _ _).mpr habs]
    rfl

theorem dictMem_titleDict_true (completed : List PodcastSegment) (t : String) :
    dictMem t (titleDict completed) = true ↔ ∃ c ∈ completed, c.title = t := by
  constructor
  · intro hm
    by_contra hno
    push_neg at hno
    have hf := (dictMem_titleDict completed t).mpr hno
    cases hf.symm.trans hm
  · rintro ⟨c, hc, hct⟩
    cases hb : dictMem t (titleDict completed) with
    | true => rfl
    | false => exact absurd hct ((dictMem_titleDict completed t).mp hb c hc)

/-- The planned titles `[A, B, C]` of the compiler-completeness scenario. -/
def segsABC : List PodcastSegment :=
  [⟨"A", "60", "a", true, ""⟩, ⟨"B", "60", "b", true, ""⟩, ⟨"C", "60", "c", true, ""⟩]

/-- A completed accumulator holding dialogues for titles `A` and `C` only. -/
def compAC : List PodcastSegment :=
  [⟨"A", "60", "a", true, "dialogue A"⟩, ⟨"C", "60", "c", true, "dialogue C"⟩]

/-- C3: if some planned title is absent from the accumulator, the compiler
fails with a missing-segments error carrying exactly the planned titles that
are absent (all of them, not just the first); in the `[A, B, C]` versus
`{A, C}` scenario it reports exactly `["B"]`. -/
theorem claim_C3 (segments completed : List PodcastSegment)
    (h : ∃ s, s ∈ segments ∧ ∀ c ∈ completed, c.title ≠ s.title) :
    compile_final_transcript segments completed =
      Except.error (CompileError.missingSegments (missingTitles segments completed)) ∧
    (∀ t, t ∈ missingTitles segments completed ↔
      ((∃ s, s ∈ segments ∧ s.title = t) ∧ ∀ c ∈ completed, c.title ≠ t)) ∧
    compile_final_transcript segsABC compAC =
      Except.error (CompileError.missingSegments ["B"]) := by
  obtain ⟨s0, hs0, habs⟩ := h
  have hmemf : dictMem s0.title (titleDict completed) = false :=
    (dictMem_titleDict _ _).mpr habs
  have hne : missingTitles segments completed ≠ [] := by
    intro hnil
    have hmem : s0.title ∈ missingTitles segments completed := by
      unfold missingTitles
      exact List.mem_map.mpr ⟨s0, List.mem_filter.mpr ⟨hs0, by simp [hmemf]⟩, rfl⟩
    rw [hnil] at hmem
    exact absurd hmem (List.not_mem_nil _)
  refine ⟨?_, ?_, by rfl⟩
  · unfold compile_final_transcript
    rw [if_neg hne]
  · intro t
    unfold missingTitles
    simp only [List.mem_map, List.mem_filter]
    constructor
    · rintro ⟨s, ⟨hs, hp⟩, ht⟩
      have hf : dictMem s.title (titleDict completed) = false := by
        cases hb : dictMem s.title (titleDict completed) with
        | false => rfl
        | true => rw [hb] at hp; simp at hp
      refine ⟨⟨s, hs, ht⟩, ?_⟩
      rw [← ht]
      exact (dictMem_titleDict _ _).mp hf
    · rintro ⟨⟨s, hs, ht⟩, hall⟩
      have hf : dictMem s.title (titleDict completed) = false :=
        (dictMem_titleDict _ _).mpr (by rw [ht]; exact hall)
      exact ⟨s, ⟨hs, by simp [hf]⟩, ht⟩

theorem claim_C3_witness :
    (∃ s, s ∈ segsABC ∧ ∀ c ∈ compAC, c.title ≠ s.title) ∧
    (compile_final_transcript segsABC compAC =
        Except.error (CompileError.missingSegments (missingTitles segsABC compAC)) ∧
      (∀ t, t ∈ missingTitles segsABC compAC ↔
        ((∃ s, s ∈ segsABC ∧ s.title = t) ∧ ∀ c ∈ compAC, c.title ≠ t)) ∧
      compile_final_transcript segsABC compAC =
        Except.error (CompileError.missingSegments ["B"])) :=
  ⟨by decide, claim_C3 segsABC compAC (by decide)⟩

/-- The dialogue the accumulator assigns to a planned segment: the dialogue
of the last completed segment carrying that title, or (unreachably, when all
titles resolve) the segment's own dialogue. -/
def accDialogue (completed : List PodcastSegment) (s : PodcastSegment) : String :=
  match (completed.filter (fun c => c.title == s.title)).getLast? with
  | some c => c.dialogue
  | Option.none => s.dialogue

theorem getD_titleDict_lookup (completed : List PodcastSegment) (s : PodcastSegment) :
    (dictLookup s.title (titleDict completed)).getD s.dialogue = accDialogue completed s := by
  rw [titleDict_lookup]
  unfold accDialogue
  cases h : (completed.filter (fun c => c.title == s.title)).getLast? <;> simp [h]

/-- The planned order of the order-preservation scenario. -/
def segsPlanEx : List PodcastSegment :=
  [⟨"Intro", "120", "opening", false, ""⟩, ⟨"T1", "400", "topic one", true, ""⟩,
   ⟨"T2", "400", "topic two", true, ""⟩, ⟨"Outro", "120", "closing", false, ""⟩]

/-- The accumulator of the order-preservation scenario, populated in arrival
order `[T2, Intro, Outro, T1]`. -/
def compArrEx : List PodcastSegment :=
  [⟨"T2", "400", "topic two", true, "dialogue T2"⟩,
   ⟨"Intro", "120", "opening", false, "dialogue Intro"⟩,
   ⟨"Outro", "120", "closing", false, "dialogue Outro"⟩,
   ⟨"T1", "400", "topic one", true, "dialogue T1"⟩]

/-- C4: when every planned title resolves in the accumulator, the compiler
succeeds with the planned segments' dialogues joined in plan order by one
blank line; the result is invariant under permuting a duplicate-free
accumulator; and the `[Intro, T1, T2, Outro]` scenario compiles in plan
order from arrival order `[T2, Intro, Outro, T1]`.  The embedding is a pure
function of its two lists: compilation performs no generation calls. -/
theorem claim_C4 (segments completed : List PodcastSegment)
    (hall : ∀ s ∈ segments, ∃ c ∈ completed, c.title = s.title) :
    compile_final_transcript segments completed =
      Except.ok (String.intercalate "\n\n" (segments.map (fun s => accDialogue completed s))) ∧
    (∀ completed2, completed2.Perm completed → (completed.map PodcastSegment.title).Nodup →
      compile_final_transcript segments completed2 = compile_final_transcript segments completed) ∧
    compile_final_transcript segsPlanEx compArrEx =
      Except.ok "dialogue Intro\n\ndialogue T1\n\ndialogue T2\n\ndialogue Outro" := by
  have hnil : missingTitles segments completed = [] := by
    unfold missingTitles
    have : segments.filter (fun s => !(dictMem s.title (titleDict completed))) = [] := by
      rw [List.filter_eq_nil_iff]
      intro s hs
      have ht : dictMem s.title (titleDict completed) = true :=
        (dictMem_titleDict_true _ _).mpr (hall s hs)
      simp [ht]
    rw [this]
    rfl
  refine ⟨?_, ?_, by rfl⟩
  · unfold compile_final_transcript
    rw [if_pos hnil]
    have hmap : segments.map (fun s => (dictLookup s.title (titleDict completed)).getD s.dialogue)
        = segments.map (fun s => accDialogue completed s) :=
      List.map_congr_left (fun s _ => getD_titleDict_lookup completed s)
    rw [hmap]
  · intro completed2 hperm hnodup
    have hkeys : ((completed.map (fun s => (s.title, s.dialogue))).map Prod.fst).Nodup := by
      rw [List.map_map]
      exact hnodup
    have hlook : ∀ t, dictLookup t (titleDict completed2) = dictLookup t (titleDict completed) := by
      intro t
      unfold titleDict
      exact dictLookup_pyDict_perm _ _ (hperm.map _) hkeys t
    have hMT : missingTitles segments completed2 = missingTitles segments completed := by
      unfold missingTitles
      congr 1
      apply List.filter_congr
      intro s _
      simp [dictMem, hlook s.title]
    have hMAP : segments.map (fun s => (dictLookup s.title (titleDict completed2)).getD s.dialogue)
        = segments.map (fun s => (dictLookup s.title (titleDict completed)).getD s.dialogue) := by
      apply List.map_congr_left
      intro s _
      rw [hlook]
    unfold compile_final_transcript
    rw [hMT, hMAP]

theorem claim_C4_witness :
    (∀ s ∈ segsPlanEx, ∃ c ∈ compArrEx, c.title = s.title) ∧
    (compile_final_transcript segsPlanEx compArrEx =
        Except.ok (String.intercalate "\n\n" (segsPlanEx.map (fun s => accDialogue compArrEx s))) ∧
      (∀ completed2, completed2.Perm compArrEx → (compArrEx.map PodcastSegment.title).Nodup →
        compile_final_transcript segsPlanEx completed2 =
          compile_final_transcript segsPlanEx compArrEx) ∧
      compile_final_transcript segsPlanEx compArrEx =
        Except.ok "dialogue Intro\n\ndialogue T1\n\ndialogue T2\n\ndialogue Outro") :=
  ⟨by decide, claim_C4 segsPlanEx compArrEx (by decide)⟩

/-- Two finished segments with distinct titles. -/
def segX : PodcastSegment := ⟨"X", "300", "topic x", true, "dialogue X"⟩

def segY : PodcastSegment := ⟨"Y", "300", "topic y", true, "dialogue Y"⟩

/-- Two finished segments sharing one title with different dialogues. -/
def segDupA : PodcastSegment := ⟨"T", "300", "topic t", true, "first dialogue"⟩

def segDupB : PodcastSegment := ⟨"T", "300", "topic t", true, "second dialogue"⟩

/-- C5 counterexample: the accumulator merge is list concatenation, not a
set union keyed by title.  Merging two distinct-title segments in the two
orders yields different accumulators, and merging two same-title segments
keeps both entries (the earlier one is not replaced in the accumulator). -/
theorem claim_C5_counterexample :
    (decide (mergeCompleted [segX] [segY] = mergeCompleted [segY] [segX]) = false) ∧
    mergeCompleted [segDupA] [segDupB] = [segDupA, segDupB] ∧
    (decide (segDupA.title = segDupB.title) = true) ∧
    (decide (segDupA ∈ mergeCompleted [segDupA] [segDupB]) = true) := by
  refine ⟨by decide, rfl, by decide, by decide⟩

/-- C5 as amended: the merge is `operator.add` (list concatenation), so the
two merge orders agree only up to permutation (same multiset of segments,
not the same list); a duplicate-title pair leaves both entries in the
accumulator, and the last-merged one wins only downstream, when the
Transcript Compiler's title-to-dialogue dict keeps the last binding. -/
theorem claim_C5_amended (a b acc : List PodcastSegment) (s1 s2 : PodcastSegment)
    (h : s1.title = s2.title) :
    (mergeCompleted a b).Perm (mergeCompleted b a) ∧
    s1 ∈ mergeCompleted (mergeCompleted acc [s1]) [s2] ∧
    dictLookup s2.title (titleDict (mergeCompleted (mergeCompleted acc [s1]) [s2])) =
      some s2.dialogue ∧
    dictLookup s1.title (titleDict (mergeCompleted (mergeCompleted acc [s1]) [s2])) =
      some s2.dialogue := by
  have hlast : dictLookup s2.title (titleDict (mergeCompleted (mergeCompleted acc [s1]) [s2])) =
      some s2.dialogue := by
    rw [titleDict_lookup]
    have hf : (mergeCompleted (mergeCompleted acc [s1]) [s2]).filter
        (fun c => c.title == s2.title) =
        ((acc ++ [s1]).filter (fun c => c.title == s2.title)) ++ [s2] := by
      unfold mergeCompleted
      rw [List.filter_append ((acc ++ [s1])) [s2]]
      simp
    rw [hf, List.getLast?_concat]
    rfl
  refine ⟨List.perm_append_comm, ?_, hlast, ?_⟩
  · unfold mergeCompleted
    simp
  · rw [h]
    exact hlast

theorem claim_C5_amended_witness :
    segDupA.title = segDupB.title ∧
    ((mergeCompleted [segX] [segY]).Perm (mergeCompleted [segY] [segX]) ∧
      segDupA ∈ mergeCompleted (mergeCompleted [] [segDupA]) [segDupB] ∧
      dictLookup segDupB.title
          (titleDict (mergeCompleted (mergeCompleted [] [segDupA]) [segDupB])) =
        some segDupB.dialogue ∧
      dictLookup segDupA.title
          (titleDict (mergeCompleted (mergeCompleted [] [segDupA]) [segDupB])) =
        some segDupB.dialogue) :=
  ⟨by decide, claim_C5_amended [segX] [segY] [] segDupA segDupB (by decide)⟩

/-! ### Configuration resolution (`configuration.Configuration.from_runnable_config`)

Embedding of `configuration.py:38-63`.  Python values that can appear as a
field value are modelled by `ConfigValue`; enum members carry their `.value`
string and are always truthy.  `from_runnable_config` computes, per field,
`os.environ.get(f.name.upper(), configurable.get(f.name))`, then drops falsy
values (`if v`), falling back to the dataclass default. -/

inductive ConfigValue where
  | vStr (s : String)
  | vInt (n : Int)
  | vEnum (s : String)
  | vNone
deriving DecidableEq, Repr

/-- Python truthiness of the values at hand: empty string, zero and `None`
are falsy. -/
def pyTruthy : ConfigValue → Bool
  | ConfigValue.vStr s => s != ""
  | ConfigValue.vInt n => n != 0
  | ConfigValue.vEnum _ => true
  | ConfigValue.vNone => false

/-- The `configuration.DEFAULT_PODCAST_STRUCTURE` template. -/
def DEFAULT_PODCAST_STRUCTURE : String :=
  "\nUse this structure to create a 30-minute podcast dialogue:\n\n1. Opening (2-3 minutes)\n   - Host introduction (30 seconds)\n   - Guest introduction (30-60 seconds)\n   - Topic overview (1 minute)\n\n2. Main Segments (24-25 minutes total)\n   - 3-4 key discussion topics\n   - Each segment 6-8 minutes\n   \n3. Closing (2-3 minutes)\n   - Key takeaways (1 minute)\n   - Guest final thoughts (30-60 seconds)\n   - Host wrap-up (30 seconds)\n"

/-- Python `str.upper()` on the ASCII field names at hand. -/
def pyUpper (s : String) : String :=
  ⟨s.data.map Char.toUpper⟩

/-- One field of the dataclass resolution:
`os.environ.get(f.name.upper(), configurable.get(f.name))` followed by the
`if v` truthiness filter whose misses take the dataclass default. -/
def resolveField (envVal : Option String) (overrideVal : Option ConfigValue)
    (dflt : ConfigValue) : ConfigValue :=
  let v := match envVal with
    | some s => ConfigValue.vStr s
    | Option.none =>
      match overrideVal with
      | some x => x
      | Option.none => ConfigValue.vNone
  if pyTruthy v then v else dflt

/-- The dataclass fields of `Configuration` with their defaults. -/
def configFields : List (String × ConfigValue) :=
  [("podcast_structure", ConfigValue.vStr DEFAULT_PODCAST_STRUCTURE),
   ("number_of_queries", ConfigValue.vInt 15),
   ("max_search_depth", ConfigValue.vInt 4),
   ("planner_provider", ConfigValue.vEnum "openai"),
   ("planner_model", ConfigValue.vStr "gpt-4o"),
   ("writer_provider", ConfigValue.vEnum "anthropic"),
   ("writer_model", ConfigValue.vStr "claude-3-5-sonnet-latest"),
   ("search_api", ConfigValue.vEnum "tavily")]

/-- `Configuration.from_runnable_config`: the environment is read at the
upper-cased field name with the per-call `configurable` entry as the
`os.environ.get` fallback, falsy results are dropped in favour of the
dataclass default. -/
def from_runnable_config (env : String → Option String)
    (configurable : String → Option ConfigValue) : List (String × ConfigValue) :=
  configFields.map (fun f => (f.1, resolveField (env (pyUpper f.1)) (configurable f.1) f.2))

/-- A runnable config that sets `number_of_queries` per call while the
environment also carries `NUMBER_OF_QUERIES`. -/
def confCX : String → Option ConfigValue :=
  fun k => if k = "number_of_queries" then some (ConfigValue.vInt 3) else Option.none

def envCX : String → Option String :=
  fun k => if k = "NUMBER_OF_QUERIES" then some "7" else Option.none

/-- C7 counterexample: with both an explicit per-call override
(`number_of_queries = 3`) and an environment value (`NUMBER_OF_QUERIES=7`)
present, `from_runnable_config` resolves the field to the environment's
value, not the per-call override — the claimed precedence
(override over environment) does not hold. -/
theorem claim_C7_counterexample :
    dictLookup "number_of_queries" (from_runnable_config envCX confCX) =
      some (ConfigValue.vStr "7") ∧
    (decide (ConfigValue.vStr "7" = ConfigValue.vInt 3) = false) := by
  refine ⟨by decide, by decide⟩

theorem dictLookup_map_field {β γ : Type} (l : List (String × β))
    (hn : (l.map Prod.fst).Nodup) (g : String × β → γ) (k : String) (v : β)
    (hm : (k, v) ∈ l) :
    dictLookup k (l.map (fun p => (p.1, g p))) = some (g (k, v)) := by
  induction l with
  | nil => cases hm
  | cons p rest ih =>
    obtain ⟨k1, v1⟩ := p
    have h2 : (k1 :: rest.map Prod.fst).Nodup := by simpa only [List.map_cons] using hn
    rcases List.mem_cons.mp hm with heq | htail
    · obtain ⟨hk, hv⟩ := Prod.mk.injEq k1 v1 k v ▸ heq.symm
      subst hk
      subst hv
      simp [dictLookup]
    · have hk1 : k1 ≠ k := by
        intro hk
        subst hk
        exact (List.nodup_cons.mp h2).1 (List.mem_map.mpr ⟨(k1, v), htail, rfl⟩)
      simp only [List.map_cons, dictLookup, if_neg hk1]
      exact ih (List.nodup_cons.mp h2).2 htail

/-- C7 as amended: for every configuration field the resolution precedence
is environment-sourced value over explicit per-call override over dataclass
default — a truthy environment value always wins even when a per-call
override is present; the override is used only when the environment key is
absent; and a falsy (or absent) resolved value falls back to the default. -/
theorem claim_C7_amended (env : String → Option String)
    (configurable : String → Option ConfigValue) (name : String) (dflt : ConfigValue)
    (hf : (name, dflt) ∈ configFields) :
    dictLookup name (from_runnable_config env configurable) =
      some (resolveField (env (pyUpper name)) (configurable name) dflt) ∧
    (∀ s, env (pyUpper name) = some s → pyTruthy (ConfigValue.vStr s) = true →
      resolveField (env (pyUpper name)) (configurable name) dflt = ConfigValue.vStr s) ∧
    (∀ s, env (pyUpper name) = some s → pyTruthy (ConfigValue.vStr s) = false →
      resolveField (env (pyUpper name)) (configurable name) dflt = dflt) ∧
    (∀ x, env (pyUpper name) = Option.none → configurable name = some x →
      pyTruthy x = true →
      resolveField (env (pyUpper name)) (configurable name) dflt = x) ∧
    (∀ x, env (pyUpper name) = Option.none → configurable name = some x →
      pyTruthy x = false →
      resolveField (env (pyUpper name)) (configurable name) dflt = dflt) ∧
    (env (pyUpper name) = Option.none → configurable name = Option.none →
      resolveField (env (pyUpper name)) (configurable name) dflt = dflt) := by
  have hnodup : (configFields.map Prod.fst).Nodup := by decide
  refine ⟨?_, ?_, ?_, ?_, ?_, ?_⟩
  · exact dictLookup_map_field configFields hnodup
      (fun f => resolveField (env (pyUpper f.1)) (configurable f.1) f.2) name dflt hf
  · intro s hs ht
    unfold resolveField
    rw [hs]
    simp [ht]
  · intro s hs ht
    unfold resolveField
    rw [hs]
    simp [ht]
  · intro x he hc ht
    unfold resolveField
    rw [he, hc]
    simp [ht]
  · intro x he hc ht
    unfold resolveField
    rw [he, hc]
    simp [ht]
  · intro he hc
    unfold resolveField
    rw [he, hc]
    simp [pyTruthy]

theorem claim_C7_witness :
    ("number_of_queries", ConfigValue.vInt 15) ∈ configFields ∧
    (dictLookup "number_of_queries" (from_runnable_config envCX confCX) =
        some (resolveField (envCX (pyUpper "number_of_queries"))
          (confCX "number_of_queries") (ConfigValue.vInt 15)) ∧
      (∀ s, envCX (pyUpper "number_of_queries") = some s →
        pyTruthy (ConfigValue.vStr s) = true →
        resolveField (envCX (pyUpper "number_of_queries")) (confCX "number_of_queries")
          (ConfigValue.vInt 15) = ConfigValue.vStr s) ∧
      (∀ s, envCX (pyUpper "number_of_queries") = some s →
        pyTruthy (ConfigValue.vStr s) = false →
        resolveField (envCX (pyUpper "number_of_queries")) (confCX "number_of_queries")
          (ConfigValue.vInt 15) = ConfigValue.vInt 15) ∧
      (∀ x, envCX (pyUpper "number_of_queries") = Option.none →
        confCX "number_of_queries" = some x → pyTruthy x = true →
        resolveField (envCX (pyUpper "number_of_queries")) (confCX "number_of_queries")
          (ConfigValue.vInt 15) = x) ∧
      (∀ x, envCX (pyUpper "number_of_queries") = Option.none →
        confCX "number_of_queries" = some x → pyTruthy x = false →
        resolveField (envCX (pyUpper "number_of_queries")) (confCX "number_of_queries")
          (ConfigValue.vInt 15) = ConfigValue.vInt 15) ∧
      (envCX (pyUpper "number_of_queries") = Option.none →
        confCX "number_of_queries" = Option.none →
        resolveField (envCX (pyUpper "number_of_queries")) (confCX "number_of_queries")
          (ConfigValue.vInt 15) = ConfigValue.vInt 15)) :=
  ⟨by decide, claim_C7_amended envCX confCX "number_of_queries" (ConfigValue.vInt 15) (by decide)⟩

/-! ### Intro/Outro stage (`graph.write_intro_outro`)

Embedding of `graph.py:154-199` together with the pre-seeding of
non-research segments by `graph.generate_podcast_plan` (`graph.py:54-66`).
The two free-text generation calls are opaque: they enter as functions of
the formatted episode context.  Of the node's returned update we model the
`completed_segments` value; the `episode_segments_from_research` string is
`format_segments` of that same list. -/

/-- Python `str.lower()` on the titles at hand. -/
def pyLower (s : String) : String :=
  ⟨s.data.map Char.toLower⟩

def pyBoolStr (b : Bool) : String := if b then "True" else "False"

/-- One block of `utils.format_segments` (the `f\x22\x22\x22...\x22\x22\x22` literal with its
indentation; an empty dialogue renders the `[Not yet written]` placeholder). -/
def formatSegmentEntry (idx : Nat) (s : PodcastSegment) : String :=
  "\n           " ++ (⟨List.replicate 60 '='⟩ : String) ++
  "\n           Segment " ++ toString idx ++ ": " ++ s.title ++
  "\n           " ++ (⟨List.replicate 60 '='⟩ : String) ++
  "\n           Duration: " ++ s.duration ++
  "\n           Description: " ++ s.description ++
  "\n           Requires Research: " ++ pyBoolStr s.research ++
  "\n\n           Dialogue:\n           " ++
  (if s.dialogue = "" then "[Not yet written]" else s.dialogue) ++
  "\n       "

def formatSegmentsAux : Nat → List PodcastSegment → String
  | _, [] => ""
  | idx, s :: rest => formatSegmentEntry idx s ++ formatSegmentsAux (idx + 1) rest

/-- `utils.format_segments`: enumerate from 1 and concatenate the blocks. -/
def format_segments (segments : List PodcastSegment) : String :=
  formatSegmentsAux 1 segments

/-- The `non_research` pre-seed of `generate_podcast_plan`:
`[s for s in podcast_segments.segments if not s.research]`, written into
`completed_segments`. -/
def nonResearch (segments : List PodcastSegment) : List PodcastSegment :=
  segments.filter (fun s => !s.research)

/-- `graph.write_intro_outro` restricted to its `completed_segments` output:
locate the first segments titled `intro` and `outro` case-insensitively,
skip each that is already present in the accumulator (Python `in` on a list
of pydantic models, i.e. structural equality), write dialogue for the
others, and append the newly completed ones. -/
def write_intro_outro (genIntro genOutro : String → String)
    (segments completed : List PodcastSegment) : List PodcastSegment :=
  let intro_segment := segments.find? (fun s => pyLower s.title == "intro")
  let outro_segment := segments.find? (fun s => pyLower s.title == "outro")
  let episode_segments := format_segments completed
  let introNew : List PodcastSegment :=
    match intro_segment with
    | some s => if s ∈ completed then [] else [{ s with dialogue := genIntro episode_segments }]
    | Option.none => []
  let outroNew : List PodcastSegment :=
    match outro_segment with
    | some s => if s ∈ completed then [] else [{ s with dialogue := genOutro episode_segments }]
    | Option.none => []
  completed ++ (introNew ++ outroNew)

theorem write_intro_outro_eq (genIntro genOutro : String → String)
    (segments completed : List PodcastSegment) :
    write_intro_outro genIntro genOutro segments completed =
      completed ++
        ((match segments.find? (fun s => pyLower s.title == "intro") with
          | some s => if s ∈ completed then []
              else [{ s with dialogue := genIntro (format_segments completed) }]
          | Option.none => []) ++
         (match segments.find? (fun s => pyLower s.title == "outro") with
          | some s => if s ∈ completed then []
              else [{ s with dialogue := genOutro (format_segments completed) }]
          | Option.none => [])) := rfl

theorem title_inj_of_nodup (l : List PodcastSegment)
    (hn : (l.map PodcastSegment.title).Nodup) :
    ∀ s ∈ l, ∀ t ∈ l, s.title = t.title → s = t := by
  induction l with
  | nil => intro s hs; cases hs
  | cons h rest ih =>
    have h2 : (h.title :: rest.map PodcastSegment.title).Nodup := by simpa using hn
    have hni := (List.nodup_cons.mp h2).1
    have hr := (List.nodup_cons.mp h2).2
    intro s hs t ht heq
    rcases List.mem_cons.mp hs with rfl | hs2
    · rcases List.mem_cons.mp ht with rfl | ht2
      · rfl
      · exact absurd (List.mem_map.mpr ⟨t, ht2, heq.symm⟩) hni
    · rcases List.mem_cons.mp ht with rfl | ht2
      · exact absurd (List.mem_map.mpr ⟨s, hs2, heq⟩) hni
      · exact ih hr s hs2 t ht2 heq

theorem filter_eq_singleton {α : Type} (l : List α) (p : α → Bool) (a : α)
    (hnd : l.Nodup) (ha : a ∈ l) (hpa : p a = true)
    (huniq : ∀ x ∈ l, p x = true → x = a) :
    l.filter p = [a] := by
  induction l with
  | nil => cases ha
  | cons h rest ih =>
    have hni := (List.nodup_cons.mp hnd).1
    have hr := (List.nodup_cons.mp hnd).2
    cases hph : p h with
    | true =>
      have hha : h = a := huniq h (List.mem_cons_self h rest) hph
      subst hha
      have hrest : rest.filter p = [] := by
        rw [List.filter_eq_nil_iff]
        intro x hx hpx
        exact hni ((huniq x (List.mem_cons_of_mem h hx) hpx) ▸ hx)
      simp [List.filter_cons, hph, hrest]
    | false =>
      have hha : a ∈ rest := by
        rcases List.mem_cons.mp ha with rfl | h2
        · rw [hph] at hpa; cases hpa
        · exact h2
      have := ih hr hha (fun x hx hpx => huniq x (List.mem_cons_of_mem h hx) hpx)
      simp [List.filter_cons, hph, this]

/-- C8: a planned segment whose lower-cased title is `intro` and whose
research flag is false is pre-seeded into the accumulator by the planning
stage; the Intro/Outro stage's membership test (structural equality against
the accumulator) therefore skips it, so the accumulator after the stage
holds no other segment with that title, and the Transcript Compiler's
title lookup resolves it to its pre-seeded empty dialogue. -/
theorem claim_C8 (genIntro genOutro : String → String)
    (segments extra : List PodcastSegment) (s0 : PodcastSegment)
    (hfind : segments.find? (fun s => pyLower s.title == "intro") = some s0)
    (hres : s0.research = false)
    (hdlg : s0.dialogue = "")
    (hnodup : (segments.map PodcastSegment.title).Nodup)
    (hextra : ∀ x ∈ extra, x.title ≠ s0.title) :
    s0 ∈ nonResearch segments ∧
    (∀ s ∈ write_intro_outro genIntro genOutro segments
        (mergeCompleted (nonResearch segments) extra),
      s.title = s0.title → s = s0) ∧
    dictLookup s0.title (titleDict (write_intro_outro genIntro genOutro segments
        (mergeCompleted (nonResearch segments) extra))) = some "" := by
  have hs0seg : s0 ∈ segments := List.mem_of_find?_eq_some hfind
  have hs0pred : (pyLower s0.title == "intro") = true := (List.find?_eq_some.mp hfind).1
  have hs0intro : pyLower s0.title = "intro" := by simpa using hs0pred
  have hs0nr : s0 ∈ nonResearch segments := by
    unfold nonResearch
    exact List.mem_filter.mpr ⟨hs0seg, by simp [hres]⟩
  set comp := mergeCompleted (nonResearch segments) extra with hcomp
  have hs0comp : s0 ∈ comp := by
    rw [hcomp]
    unfold mergeCompleted
    exact List.mem_append_left _ hs0nr
  have hresult : ∃ newOut : List PodcastSegment,
      write_intro_outro genIntro genOutro segments comp = comp ++ newOut ∧
      ∀ x ∈ newOut, x.title ≠ s0.title := by
    rw [write_intro_outro_eq, hfind]
    cases hof : segments.find? (fun s => pyLower s.title == "outro") with
    | none =>
      refine ⟨[], ?_, by intro x hx; cases hx⟩
      simp [hs0comp]
    | some o =>
      have hopred : (pyLower o.title == "outro") = true := (List.find?_eq_some.mp hof).1
      have hone : o.title ≠ s0.title := by
        intro he
        have h1 : pyLower o.title = "outro" := by simpa using hopred
        rw [he, hs0intro] at h1
        exact absurd h1 (by decide)
      by_cases hoc : o ∈ comp
      · refine ⟨[], ?_, by intro x hx; cases hx⟩
        simp [hs0comp, hoc]
      · refine ⟨[{ o with dialogue := genOutro (format_segments comp) }], ?_, ?_⟩
        · simp [hs0comp, hoc]
        · intro x hx
          rw [List.mem_singleton.mp hx]
          exact hone
  obtain ⟨newOut, hwrite, hnewOut⟩ := hresult
  refine ⟨hs0nr, ?_, ?_⟩
  · intro s hs hteq
    rw [hwrite] at hs
    rcases List.mem_append.mp hs with hs | hs
    · rw [hcomp] at hs
      rcases List.mem_append.mp hs with hs | hs
      · have hsseg : s ∈ segments := List.mem_of_mem_filter hs
        exact title_inj_of_nodup segments hnodup s hsseg s0 hs0seg hteq
      · exact absurd hteq (hextra s hs)
    · exact absurd hteq (hnewOut s hs)
  · rw [hwrite, titleDict_lookup]
    have hsegnd : segments.Nodup := List.Nodup.of_map _ hnodup
    have hfilter : (comp ++ newOut).filter (fun c => c.title == s0.title) = [s0] := by
      rw [List.filter_append]
      have h2 : newOut.filter (fun c => c.title == s0.title) = [] := by
        rw [List.filter_eq_nil_iff]
        intro x hx hbx
        exact hnewOut x hx (by simpa using hbx)
      rw [h2, List.append_nil]
      rw [hcomp]
      show (nonResearch segments ++ extra).filter (fun c => c.title == s0.title) = [s0]
      rw [List.filter_append]
      have h3 : extra.filter (fun c => c.title == s0.title) = [] := by
        rw [List.filter_eq_nil_iff]
        intro x hx hbx
        exact hextra x hx (by simpa using hbx)
      rw [h3, List.append_nil]
      apply filter_eq_singleton
      · exact (List.filter_sublist segments).nodup hsegnd
      · exact hs0nr
      · simp
      · intro x hx hbx
        have hxs : x ∈ segments := List.mem_of_mem_filter hx
        exact title_inj_of_nodup segments hnodup x hxs s0 hs0seg (by simpa using hbx)
    rw [hfilter]
    simp [hdlg]

def segIntroEx : PodcastSegment := ⟨"Intro", "120", "opening", false, ""⟩

def segTopicEx : PodcastSegment := ⟨"Basics", "400", "basics", true, ""⟩

def segOutroEx : PodcastSegment := ⟨"Outro", "120", "closing", false, ""⟩

def segsIntroOutroEx : List PodcastSegment := [segIntroEx, segTopicEx, segOutroEx]

def extraEx : List PodcastSegment := [⟨"Basics", "400", "basics", true, "researched dialogue"⟩]

theorem claim_C8_witness :
    (segsIntroOutroEx.find? (fun s => pyLower s.title == "intro") = some segIntroEx ∧
      segIntroEx.research = false ∧ segIntroEx.dialogue = "" ∧
      (segsIntroOutroEx.map PodcastSegment.title).Nodup ∧
      ∀ x ∈ extraEx, x.title ≠ segIntroEx.title) ∧
    (segIntroEx ∈ nonResearch segsIntroOutroEx ∧
      (∀ s ∈ write_intro_outro (fun _ => "generated intro") (fun _ => "generated outro")
          segsIntroOutroEx (mergeCompleted (nonResearch segsIntroOutroEx) extraEx),
        s.title = segIntroEx.title → s = segIntroEx) ∧
      dictLookup segIntroEx.title (titleDict (write_intro_outro
          (fun _ => "generated intro") (fun _ => "generated outro")
          segsIntroOutroEx (mergeCompleted (nonResearch segsIntroOutroEx) extraEx))) =
        some "") :=
  ⟨⟨by decide, by decide, by decide, by decide, by decide⟩,
   claim_C8 (fun _ => "generated intro") (fun _ => "generated outro")
     segsIntroOutroEx extraEx segIntroEx (by decide) (by decide) (by decide)
     (by decide) (by decide)⟩

/-! ### Transcript preprocessing (`podcast_generator.preprocess_transcript`)

Embedding of `podcast_generator.py:17-51`.  `re.sub(r&asterisk;..., ...)` deleting runs
of asterisks deletes exactly the asterisk characters; `str.split` on a
newline, `str.strip`, `str.startswith` and `str.replace` (which replaces
every occurrence, left to right, non-overlapping) are modelled on the
character lists.  `removeAll` is Python `line.replace(pattern, '')` for a
non-empty pattern (the patterns at hand always end in a colon); it is
written with a step-counting argument equal to the input length so that it
evaluates structurally. -/

def stripAsterisks (s : String) : String :=
  ⟨s.data.filter (fun c => c != '*')⟩

/-- Python `str.split` on the newline character: no collapsing, an empty
string yields one empty piece. -/
def splitNl : List Char → List (List Char)
  | [] => [[]]
  | c :: rest =>
    match splitNl rest with
    | [] => [[]]
    | h :: t => if c = '\n' then [] :: h :: t else (c :: h) :: t

def removeAllAux (pat : List Char) : Nat → List Char → List Char
  | _, [] => []
  | 0, s => s
  | Nat.succ n, c :: rest =>
    if pat ≠ [] ∧ pat.isPrefixOf (c :: rest) then
      removeAllAux pat n (rest.drop (pat.length - 1))
    else c :: removeAllAux pat n rest

/-- Python `s.replace(pat, '')` for non-empty `pat`: delete every
occurrence, scanning left to right without overlap.  The fuel
`s.length` is an upper bound on the number of scanning steps. -/
def removeAll (pat s : List Char) : List Char :=
  removeAllAux pat s.length s

/-- The body of the per-line loop of `preprocess_transcript`: strip the
line, skip it when empty, emit a host or guest entry when the line starts
with the respective `name:` prefix (removing every occurrence of that
prefix from the line and stripping), otherwise emit nothing. -/
def processLine (host_name guest_name : String) (rawLine : String) :
    Option (String × String) :=
  let line := pyStrip rawLine
  if line = "" then Option.none
  else if (host_name ++ ":").data.isPrefixOf line.data then
    some ("host", pyStrip ⟨removeAll (host_name ++ ":").data line.data⟩)
  else if (guest_name ++ ":").data.isPrefixOf line.data then
    some ("guest", pyStrip ⟨removeAll (guest_name ++ ":").data line.data⟩)
  else Option.none

/-- One iteration of the `for line in lines` loop: append the entry the
line produces, if any. -/
def stepLine (host_name guest_name : String) (conversations : List (String × String))
    (line : String) : List (String × String) :=
  match processLine host_name guest_name line with
  | some entry => conversations ++ [entry]
  | Option.none => conversations

/-- `podcast_generator.preprocess_transcript`: delete asterisks, split into
lines, and fold the per-line loop over them, appending at most one
role-text entry per line. -/
def preprocess_transcript (transcript host_name guest_name : String) :
    List (String × String) :=
  let t := stripAsterisks transcript
  let lines := (splitNl t.data).map (fun l => (⟨l⟩ : String))
  lines.foldl (stepLine host_name guest_name) []

theorem foldl_stepLine_filterMap (host_name guest_name : String) (l : List String) :
    ∀ acc : List (String × String),
      l.foldl (stepLine host_name guest_name) acc =
        acc ++ l.filterMap (processLine host_name guest_name) := by
  induction l with
  | nil => intro acc; simp
  | cons x rest ih =>
    intro acc
    simp only [List.foldl_cons]
    cases hf : processLine host_name guest_name x with
    | some e =>
      rw [stepLine, hf, ih]
      simp [List.filterMap_cons, hf, List.append_assoc]
    | none =>
      rw [stepLine, hf, ih]
      simp [List.filterMap_cons, hf]

theorem removeAllAux_unfold (pat : List Char) (n : Nat) (c : Char) (rest : List Char) :
    removeAllAux pat (n + 1) (c :: rest) =
      if pat ≠ [] ∧ pat.isPrefixOf (c :: rest) then
        removeAllAux pat n (rest.drop (pat.length - 1))
      else c :: removeAllAux pat n rest := rfl

theorem removeAllAux_succ (pat : List Char) :
    ∀ (n : Nat) (s : List Char), s.length ≤ n →
      removeAllAux pat n s = removeAllAux pat (n + 1) s := by
  intro n
  induction n with
  | zero =>
    intro s hs
    have : s = [] := List.length_eq_zero.mp (Nat.le_zero.mp hs)
    subst this
    rfl
  | succ n ih =>
    intro s hs
    cases s with
    | nil => rfl
    | cons c rest =>
      have hrest : rest.length ≤ n := by
        have := hs
        simp only [List.length_cons] at this
        omega
      rw [removeAllAux_unfold, removeAllAux_unfold]
      by_cases hc : pat ≠ [] ∧ pat.isPrefixOf (c :: rest)
      · rw [if_pos hc, if_pos hc]
        have hlen : (rest.drop (pat.length - 1)).length ≤ n := by
          rw [List.length_drop]
          omega
        exact ih _ hlen
      · rw [if_neg hc, if_neg hc, ih rest hrest]

theorem removeAllAux_eq_removeAll (pat : List Char) :
    ∀ (m : Nat) (s : List Char), s.length ≤ m → removeAllAux pat m s = removeAll pat s := by
  intro m
  induction m with
  | zero =>
    intro s hs
    have : s = [] := List.length_eq_zero.mp (Nat.le_zero.mp hs)
    subst this
    rfl
  | succ m ih =>
    intro s hs
    by_cases he : s.length ≤ m
    · rw [← removeAllAux_succ pat m s he, ih s he]
    · have hlen : s.length = m + 1 := by omega
      rw [removeAll, hlen]

theorem removeAll_prefix_match (pat rest : List Char) (hne : pat ≠ []) :
    removeAll pat (pat ++ rest) = removeAll pat rest := by
  cases pat with
  | nil => exact absurd rfl hne
  | cons c0 p0 =>
    have hpre : (c0 :: p0).isPrefixOf (c0 :: (p0 ++ rest)) := by
      rw [List.isPrefixOf_iff_prefix]
      exact (List.prefix_append (c0 :: p0) rest :
        (c0 :: p0) <+: (c0 :: p0) ++ rest)
    have hlen : ((c0 :: p0) ++ rest).length = (p0 ++ rest).length + 1 := by simp
    rw [removeAll, hlen]
    show removeAllAux (c0 :: p0) ((p0 ++ rest).length + 1) (c0 :: (p0 ++ rest)) = _
    rw [removeAllAux_unfold, if_pos ⟨by simp, hpre⟩]
    have hdrop : (p0 ++ rest).drop ((c0 :: p0).length - 1) = rest := by
      simp [List.drop_left]
    rw [hdrop]
    exact removeAllAux_eq_removeAll (c0 :: p0) _ rest (by simp)

/-- C10: a line accepted as a host (or guest) utterance has every occurrence
of the `name:` pattern removed from it — `str.replace` replaces all, not
only the leading speaker prefix — so an utterance quoting the speaker label
loses that quoted text; lines starting with neither registered name produce
no entry; and `preprocess_transcript` is the per-line rule folded over the
asterisk-stripped lines. -/
theorem claim_C10 :
    (∀ transcript host_name guest_name,
      preprocess_transcript transcript host_name guest_name =
        ((splitNl (stripAsterisks transcript).data).map (fun l => (⟨l⟩ : String))).filterMap
          (processLine host_name guest_name)) ∧
    (∀ host_name guest_name rawLine,
      pyStrip rawLine ≠ "" →
      (host_name ++ ":").data.isPrefixOf (pyStrip rawLine).data →
      processLine host_name guest_name rawLine =
        some ("host", pyStrip ⟨removeAll (host_name ++ ":").data (pyStrip rawLine).data⟩)) ∧
    (∀ pat rest, pat ≠ [] → removeAll pat (pat ++ rest) = removeAll pat rest) ∧
    (∀ host_name guest_name rawLine,
      ¬ (host_name ++ ":").data.isPrefixOf (pyStrip rawLine).data →
      ¬ (guest_name ++ ":").data.isPrefixOf (pyStrip rawLine).data →
      processLine host_name guest_name rawLine = Option.none) ∧
    preprocess_transcript "Alex: I said Alex: hi" "Alex" "Sam" = [("host", "I said  hi")] ∧
    (decide (("I said  hi" : String) = "I said Alex: hi") = false) := by
  refine ⟨?_, ?_, removeAll_prefix_match, ?_, by decide, by decide⟩
  · intro transcript host_name guest_name
    show List.foldl (stepLine host_name guest_name)
        [] ((splitNl (stripAsterisks transcript).data).map (fun l => (⟨l⟩ : String))) =
      ((splitNl (stripAsterisks transcript).data).map (fun l => (⟨l⟩ : String))).filterMap
        (processLine host_name guest_name)
    rw [foldl_stepLine_filterMap]
    simp
  · intro host_name guest_name rawLine hne hpre
    unfold processLine
    rw [if_neg hne, if_pos hpre]
  · intro host_name guest_name rawLine hh hg
    unfold processLine
    by_cases he : pyStrip rawLine = ""
    · rw [if_pos he]
    · rw [if_neg he, if_neg hh, if_neg hg]

theorem claim_C10_witness :
    processLine "Alex" "Sam" "Alex: ok" =
      some ("host", pyStrip ⟨removeAll ("Alex" ++ ":").data (pyStrip "Alex: ok").data⟩) ∧
    removeAll ("Alex:").data (("Alex:").data ++ (" hi").data) =
      removeAll ("Alex:").data (" hi").data ∧
    processLine "Alex" "Sam" "Narrator: x" = Option.none :=
  ⟨claim_C10.2.1 "Alex" "Sam" "Alex: ok" (by decide) (by decide),
   claim_C10.2.2.1 ("Alex:").data (" hi").data (by decide),
   claim_C10.2.2.2.1 "Alex" "Sam" "Narrator: x" (by decide) (by decide)⟩

/-! ### Segment Research Sub-workflow (`graph.py` segment builder)

Embedding of the `generate_queries → search_web → write_dialogue` loop
(`graph.py:68-152`, wired at `graph.py:216-223`).  Grading outcomes are an
opaque capability: `grades k` is the verdict the optimizer returns for the
`k`-th draft.  `search_web` increments `search_iterations`
(`graph.py:104`).  The branch at `graph.py:140` evaluates
`feedback.grade == "pass" or state["search_iterations"] >= config.max_search_depth`
with short-circuit `or`; `config` is the LangGraph `RunnableConfig`, a
`TypedDict` — a plain dict at runtime — so the attribute access
`config.max_search_depth` raises `AttributeError` (the function builds
`configurable = Configuration.from_runnable_config(config)` but never reads
`configurable.max_search_depth`). -/

inductive Grade where
  | pass
  | fail
deriving DecidableEq, Repr

inductive PyErr where
  | attributeError (attr : String)
deriving DecidableEq, Repr

inductive WriteGoto where
  | toEND
  | toSearchWeb
deriving DecidableEq, Repr

/-- The runtime value of `config.max_search_depth` in `write_dialogue`:
attribute access on the `RunnableConfig` dict raises `AttributeError`. -/
def configAttrMaxSearchDepth : Except PyErr Int :=
  Except.error (PyErr.attributeError "max_search_depth")

/-- The branch decision closing `write_dialogue` (`graph.py:140-152`).  A
`pass` grade short-circuits the `or` and accepts; a `fail` grade forces the
evaluation of `config.max_search_depth`, which raises. -/
def write_dialogue_branch (grade : Grade) (search_iterations : Nat) :
    Except PyErr WriteGoto :=
  match grade with
  | Grade.pass => Except.ok WriteGoto.toEND
  | Grade.fail =>
    match configAttrMaxSearchDepth with
    | Except.error e => Except.error e
    | Except.ok d =>
      if (search_iterations : Int) ≥ d then Except.ok WriteGoto.toEND
      else Except.ok WriteGoto.toSearchWeb

inductive SubState where
  | generateQueries (search_iterations attempt : Nat)
  | searchWeb (search_iterations attempt : Nat)
  | writeDialogue (search_iterations attempt : Nat)
  | accepted (search_iterations : Nat)
  | errored (e : PyErr)
deriving DecidableEq, Repr

/-- One transition of the sub-workflow: entry flows to `SEARCH`, `SEARCH`
increments the iteration counter and flows to `DRAFT_AND_GRADE`, whose
branch either accepts, revises back to `SEARCH`, or aborts with the raised
error.  Terminal states are absorbing. -/
def subStep (grades : Nat → Grade) : SubState → SubState
  | SubState.generateQueries it a => SubState.searchWeb it a
  | SubState.searchWeb it a => SubState.writeDialogue (it + 1) a
  | SubState.writeDialogue it a =>
    match write_dialogue_branch (grades a) it with
    | Except.ok WriteGoto.toEND => SubState.accepted it
    | Except.ok WriteGoto.toSearchWeb => SubState.searchWeb it (a + 1)
    | Except.error e => SubState.errored e
  | SubState.accepted it => SubState.accepted it
  | SubState.errored e => SubState.errored e

/-- The sub-workflow run after `n` transitions from its entry state. -/
def runSub (grades : Nat → Grade) : Nat → SubState
  | 0 => SubState.generateQueries 0 0
  | Nat.succ n => subStep grades (runSub grades n)

/-- A run whose every draft is graded `fail`. -/
def gradesAllFail : Nat → Grade := fun _ => Grade.fail

def isAccepted : SubState → Bool
  | SubState.accepted _ => true
  | _ => false

/-- C1 (code bug): on the first `fail` grade the sub-workflow aborts with
`AttributeError` on `config.max_search_depth` instead of comparing against
the configured maximum depth, so it does not reach `ACCEPT` at all — the
run with all-fail grades errors at the third transition and is never in an
accepted state. -/
theorem claim_C1 :
    runSub gradesAllFail 3 = SubState.errored (PyErr.attributeError "max_search_depth") ∧
    (∀ n, isAccepted (runSub gradesAllFail n) = false) := by
  have h3 : runSub gradesAllFail 3 =
      SubState.errored (PyErr.attributeError "max_search_depth") := rfl
  refine ⟨h3, ?_⟩
  have hstuck : ∀ m, runSub gradesAllFail (m + 3) =
      SubState.errored (PyErr.attributeError "max_search_depth") := by
    intro m
    induction m with
    | zero => exact h3
    | succ k ih =>
      show subStep gradesAllFail (runSub gradesAllFail (k + 3)) = _
      rw [ih]
      rfl
  intro n
  match n with
  | 0 => rfl
  | 1 => rfl
  | 2 => rfl
  | (m + 3) => rw [hstuck m]; rfl

/-- The branch the code intends (`configurable.max_search_depth`): accept on
a `pass` grade or once the incremented iteration counter reaches the
configured depth. -/
def intendedSearchCount (grades : Nat → Grade) (d : Nat) : Nat → Nat → Nat → Nat
  | 0, _, iters => iters + 1
  | Nat.succ fuel, attempt, iters =>
    if grades attempt = Grade.pass ∨ d ≤ iters + 1 then iters + 1
    else intendedSearchCount grades d fuel (attempt + 1) (iters + 1)

theorem intended_searches_le (grades : Nat → Grade) (d : Nat) :
    ∀ (fuel attempt iters : Nat),
      intendedSearchCount grades d fuel attempt iters ≤ iters + fuel + 1 := by
  intro fuel
  induction fuel with
  | zero => intro a it; simp [intendedSearchCount]
  | succ n ih =>
    intro a it
    show (if grades a = Grade.pass ∨ d ≤ it + 1 then it + 1
      else intendedSearchCount grades d n (a + 1) (it + 1)) ≤ it + (n + 1) + 1
    by_cases h : grades a = Grade.pass ∨ d ≤ it + 1
    · rw [if_pos h]; omega
    · rw [if_neg h]
      have := ih (a + 1) (it + 1)
      omega

/-- Under the intended branch, a full run (initial counter 0, at most `d`
revision rounds) executes at most `d + 1` searches — the bound the spec
states — for every grading outcome. -/
theorem intended_bound (grades : Nat → Grade) (d : Nat) :
    intendedSearchCount grades d d 0 0 ≤ d + 1 := by
  have := intended_searches_le grades d d 0 0
  omega
